import Mathlib

/-!
Verification of the kubos flight-software core against its specification.

The development shallowly embeds three subsystems of the repository:

* the chunk store (`src/libs/file-protocol/src/storage.rs`),
* the comms-bridge admission and downlink backpressure logic
  (`src/libs/comms-service/src/service.rs`),
* the scheduler start/stop/failover logic and the task runner
  (`src/services/scheduler-service/src/scheduler.rs`, `app.rs`).

File contents, byte values and counters are modelled with `Nat`/`Int`;
filesystem state that a function reads or writes is passed explicitly.
-/

namespace KubosStorage

/-- The `ProtocolError` kinds that `storage.rs` produces
(`src/libs/file-protocol/src/error.rs`).  `StorageError` carries the
`action` string; the wrapped `io::Error` is abstracted away. -/
inductive ProtocolError where
  | StorageError (action : String) : ProtocolError
  | StorageParseError (msg : String) : ProtocolError
  | FinalizeError (cause : String) : ProtocolError
  | HashMismatch : ProtocolError
  deriving Repr, DecidableEq

/-- `struct Meta` (storage.rs 65-70): the per-hash metadata record. -/
structure Meta where
  num_chunks : Nat
  chunk_size : Option Nat
  file_path : Option String
  deriving Repr, DecidableEq

/-- The staging directory `<prefix>/storage/<hash>`: the per-index chunk
files (each file is named by its decimal index) and the optional `meta`
file.  The association list order models the unspecified `fs::read_dir`
order. -/
structure HashDir where
  chunkFiles : List (Nat × List Nat)
  meta : Option Meta
  deriving Repr, DecidableEq

/-- External files (the transfer source referenced by `Meta.file_path`):
maps a path to the byte content of the file stored there. -/
def FileSys := String → Option (List Nat)

/-- The numeric directory entries of the hash directory, as the `i32`
values `validate_file` parses from the file names (storage.rs 215-239).
The `meta` file name does not parse as a number and is dropped by the
`filter_map`. -/
def dirEntries (d : HashDir) : List Int :=
  d.chunkFiles.map fun p => (p.1 : Int)

/-- The range-scan loop of `validate_file` (storage.rs 243-261).
`prev` is `prev_entry` (seeded with `-1`), `m` is `max_entries` (seeded
with 186).  Returns the list of pushed `[start, end)` pairs (the Rust code
pushes the two ends of each pair consecutively onto a flat `Vec<u32>`),
the final `prev_entry` and the final `max_entries`.  When `max_entries`
reaches 0 the loop `break`s before updating `prev_entry`, which the first
branch mirrors.  The `as u32` casts are `Int.toNat`; the loop only ever
casts non-negative values once seeded with `-1`. -/
def scanEntries : List Int → Int → Nat → List (Nat × Nat) × Int × Nat
  | [], prev, m => ([], prev, m)
  | e :: rest, prev, m =>
    if e - prev > 1 then
      if m - 1 = 0 then
        ([((prev + 1).toNat, e.toNat)], prev, 0)
      else
        let r := scanEntries rest e (m - 1)
        (((prev + 1).toNat, e.toNat) :: r.1, r.2.1, r.2.2)
    else
      scanEntries rest e m

/-- The trailing-range check after the loop (storage.rs 267-272). -/
def trailingRange (num_chunks : Nat) (prev : Int) (m : Nat) : List (Nat × Nat) :=
  if m ≠ 0 ∧ (num_chunks : Int) - prev ≠ 1 then [((prev + 1).toNat, num_chunks)] else []

/-- The pure core of `validate_file` (storage.rs 204-274) on the parsed
numeric directory entries: sort ascending (`converted_entries.sort()`),
run the range scan, append the trailing range, and return
`(missing_ranges.is_empty(), missing_ranges)`. -/
def validate_ranges (num_chunks : Nat) (entries : List Int) : Bool × List (Nat × Nat) :=
  let sorted := entries.insertionSort (· ≤ ·)
  let s := scanEntries sorted (-1) 186
  let full := s.1 ++ trailingRange num_chunks s.2.1 s.2.2
  (full.isEmpty, full)

/-- `load_meta` (storage.rs 163-188): read and parse the `meta` file;
an absent file is an io error. -/
def load_meta (d : HashDir) : Except ProtocolError Meta :=
  match d.meta with
  | none => .error (.StorageError "open metadata file")
  | some m => .ok m

/-- `validate_file(prefix, hash, num_chunks)` (storage.rs 191-275)
including its effect on the metadata: with `some num` it first rewrites the
metadata via `store_meta(prefix, hash, num, None, None)` (storage.rs
196-198); with `none` it loads the stored metadata.  Returns the
`(complete, missing_ranges)` pair and the directory afterwards. -/
def validate_file (d : HashDir) (num_chunks : Option Nat) :
    Except ProtocolError ((Bool × List (Nat × Nat)) × HashDir) :=
  match num_chunks with
  | some num =>
    let d' : HashDir := { d with meta := some ⟨num, none, none⟩ }
    .ok (validate_ranges num (dirEntries d'), d')
  | none =>
    match d.meta with
    | none => .error (.StorageError "open metadata file")
    | some m => .ok (validate_ranges m.num_chunks (dirEntries d), d)

/-- `load_chunk` (storage.rs 119-160): when the metadata carries both
`chunk_size` and `file_path`, open the source file, seek to
`chunk_size * index` and read up to `chunk_size` bytes (a seek past the
end followed by a read yields the empty suffix, as `drop`/`take` does);
otherwise read the per-index chunk file whole. -/
def load_chunk (fs : FileSys) (d : HashDir) (index : Nat) :
    Except ProtocolError (List Nat) :=
  match load_meta d with
  | .error e => .error e
  | .ok m =>
    match m.chunk_size, m.file_path with
    | some cs, some path =>
      match fs path with
      | none => .error (.StorageError s!"open chunk file {index}")
      | some content => .ok ((content.drop (cs * index)).take cs)
    | _, _ =>
      match d.chunkFiles.lookup index with
      | none => .error (.StorageError s!"open chunk file {index}")
      | some data => .ok data

/-- `store_chunk` (storage.rs 38-63): write `hash/<index>`, replacing any
previous content of that chunk file. -/
def store_chunk (d : HashDir) (index : Nat) (data : List Nat) : HashDir :=
  { d with chunkFiles := (index, data) :: d.chunkFiles.filter (fun p => p.1 != index) }

/-- `delete_chunk` (storage.rs 399-410): `fs::remove_file` fails when the
chunk file does not exist. -/
def delete_chunk (d : HashDir) (index : Nat) : Except ProtocolError HashDir :=
  if (d.chunkFiles.lookup index).isSome then
    .ok { d with chunkFiles := d.chunkFiles.filter (fun p => p.1 != index) }
  else
    .error (.StorageError s!"deleting chunk file {index}")

/-- The i-th transfer chunk of a byte sequence: bytes
`[chunk_size * i, chunk_size * (i+1))`, exactly what the `file_path` seek
branch of `load_chunk` reads for index `i`. -/
def chunkOf (content : List Nat) (cs i : Nat) : List Nat :=
  (content.drop (cs * i)).take cs

/-- `num_chunks` as computed by `initialize_file` (storage.rs 304-306):
`size / chunk_size` plus one when the division has a remainder. -/
def numChunksOf (size cs : Nat) : Nat :=
  size / cs + (if size % cs > 0 then 1 else 0)

/-- `initialize_file` (storage.rs 281-321): stat the source (error if
absent), hash its content, compute the chunk count, and `store_meta` a
record referencing the source path with the transfer chunk size.  Returns
the hex hash, the chunk count and the stored metadata record.  The digest
`hashFn` abstracts `calc_file_hash` (storage.rs 434-467): the Blake2s-16
hex digest of the streamed file depends only on the file content, which is
all the claims use; the returned POSIX mode bits are not part of the
byte-level model. -/
def initialize_file (hashFn : List Nat → String) (fs : FileSys)
    (source_path : String) (transfer_chunk_size : Nat) :
    Except ProtocolError (String × Nat × Meta) :=
  match fs source_path with
  | none => .error (.StorageError s!"stat file {source_path}")
  | some content =>
    .ok (hashFn content, numChunksOf content.length transfer_chunk_size,
      ⟨numChunksOf content.length transfer_chunk_size,
        some transfer_chunk_size, some source_path⟩)

/-- Result of the reassembly loop of `finalize_file` (storage.rs 358-384).
`halted` is a `delete_chunk` failure propagated by `?`; `dir` and
`written` are the directory and the bytes written to the target when the
loop stopped; `err` is the remembered `load_chunk_err`. -/
structure LoopOut where
  halted : Option ProtocolError
  dir : HashDir
  written : List Nat
  err : Option ProtocolError
  deriving Repr, DecidableEq

/-- The reassembly loop of `finalize_file` (storage.rs 358-384), iterating
chunk indices `i, i+1, ...` for `k` steps.  A chunk that fails to load is
deleted (a failure of the delete itself stops the loop via `?`) and
`load_chunk_err` is overwritten with the new error; loading then continues
with the next chunk.  A loaded chunk is appended to the target file. -/
def reassembleLoop (fs : FileSys) : Nat → Nat → HashDir → List Nat →
    Option ProtocolError → LoopOut
  | 0, _, d, acc, err => ⟨none, d, acc, err⟩
  | k + 1, i, d, acc, err =>
    match load_chunk fs d i with
    | .ok c => reassembleLoop fs k (i + 1) d (acc ++ c) err
    | .error e =>
      match delete_chunk d i with
      | .error de => ⟨some de, d, acc, some e⟩
      | .ok d' => reassembleLoop fs k (i + 1) d' acc (some e)

/-- Observable outcome of `finalize_file`: the returned value, the staging
directory `<prefix>/storage/<hash>` afterwards (`none` once `delete_file`
removed the whole directory), and the bytes written to `target_path`
(`none` when the target file was never created). -/
structure FinalizeOutcome where
  result : Except ProtocolError Unit
  dir : Option HashDir
  target : Option (List Nat)
  deriving Repr

/-- `finalize_file` (storage.rs 324-397): re-validate (incomplete staging
fails with `FinalizeError("file missing chunks")` before the target is
created), create/truncate the target, reassemble the chunks in order, then
recompute the hash of the assembled bytes — on mismatch `delete_file` the
entire hash directory and fail with `HashMismatch`.  The `mode` argument
only sets permission bits on the target and is not part of the byte-level
model; `hashFn` abstracts `calc_file_hash` as in `initialize_file`. -/
def finalize_file (hashFn : List Nat → String) (fs : FileSys) (hash : String)
    (d : HashDir) : FinalizeOutcome :=
  match validate_file d none with
  | .error e => ⟨.error e, some d, none⟩
  | .ok (r, d₁) =>
    if !r.1 then
      ⟨.error (.FinalizeError "file missing chunks"), some d₁, none⟩
    else
      match load_meta d₁ with
      | .error e => ⟨.error e, some d₁, none⟩
      | .ok m =>
        let out := reassembleLoop fs m.num_chunks 0 d₁ [] none
        match out.halted with
        | some de => ⟨.error de, some out.dir, some out.written⟩
        | none =>
          match out.err with
          | some e => ⟨.error e, some out.dir, some out.written⟩
          | none =>
            if hashFn out.written = hash then
              ⟨.ok (), some out.dir, some out.written⟩
            else
              ⟨.error .HashMismatch, none, some out.written⟩

/-! Auxiliary quantities used to state properties of the range scan. -/

/-- Number of gap checks that fire during an uninterrupted scan: one per
entry whose distance from its predecessor (`prev`-seeded) exceeds 1. -/
def gapCount : List Int → Int → Nat
  | [], _ => 0
  | e :: rest, prev => (if e - prev > 1 then 1 else 0) + gapCount rest e

/-- Final value of `prev_entry` after an uninterrupted scan. -/
def lastPrev : List Int → Int → Int
  | [], prev => prev
  | e :: rest, _ => lastPrev rest e

/-- Number of maximal runs of missing indices in `[0, num_chunks)` when
exactly the indices of `entries` (ascending) are present: the interior
gaps plus the trailing run when the last present index is below
`num_chunks - 1`. -/
def runCount (num_chunks : Nat) (entries : List Int) : Nat :=
  gapCount entries (-1) +
    (if (num_chunks : Int) - lastPrev entries (-1) ≠ 1 then 1 else 0)

/-- `i` lies in one of the half-open `[start, end)` ranges of `L`. -/
def Covered (L : List (Nat × Nat)) (i : Int) : Prop :=
  ∃ p ∈ L, (p.1 : Int) ≤ i ∧ i < (p.2 : Int)

instance (L : List (Nat × Nat)) (i : Int) : Decidable (Covered L i) := by
  unfold Covered; infer_instance

instance : DecidableEq (Except ProtocolError Unit)
  | .ok (), .ok () => .isTrue rfl
  | .ok (), .error _ => .isFalse fun h => Except.noConfusion h
  | .error _, .ok () => .isFalse fun h => Except.noConfusion h
  | .error a, .error b =>
    match decEq a b with
    | .isTrue h => .isTrue (h ▸ rfl)
    | .isFalse h => .isFalse fun k => h (Except.error.inj k)

/-- The staging directory holding chunk `i` of `content` for every index
`i ∈ present`, with metadata `meta`. -/
def stagedDir (content : List Nat) (cs : Nat) (present : List Nat) (meta : Meta) : HashDir :=
  ⟨present.map (fun i => (i, chunkOf content cs i)), some meta⟩

/-- Input of the counterexample to the uncapped reading of the
missing-range property: every odd index below 374 is present, so the
complement `{0, 2, ..., 372}` has 187 maximal runs — one more than the
186-range cap. -/
def ceEntries : List Int := (List.range 187).map (fun k => (2 * k + 1 : Int))

/-- Concrete staging directory used for the reassembly-error
counterexample: both chunk files exist, but the metadata points chunk
loads at a source file that is gone. -/
def ceDir : HashDir :=
  ⟨[(0, [1]), (1, [2])], some ⟨2, some 1, some "gone"⟩⟩

/-- Filesystem with no files, for the reassembly-error counterexample. -/
def ceFs : FileSys := fun _ => none

end KubosStorage

namespace KubosComms

/-- `PayloadType` (src/libs/comms-service/src/packet.rs): the payload
classes dispatched by `read_thread`. -/
inductive PayloadType where
  | Unknown (value : Nat)
  | UDP
  | GraphQL
  | UDPDlStream
  deriving Repr, DecidableEq

/-- The `CommsServiceError` kinds logged by the dispatch paths modelled
here (service.rs 236-324). -/
inductive CommsServiceError where
  | NoAvailablePorts
  | UnknownPayloadType (value : Nat)
  deriving Repr, DecidableEq

/-- The admission decision of `read_thread` for one validated frame
(service.rs 235-364), given the current handler counter `n`: returns the
new counter, whether a handler thread is spawned, and the error logged to
telemetry.  `GraphQL` (request) and `UDPDlStream` (stream) frames are
dropped with `NoAvailablePorts` when `n >= max_num_handlers` and otherwise
increment the counter under the mutex before spawning; `UDP` frames are
forwarded inline and `Unknown` frames are logged and discarded. -/
def dispatch (max_num_handlers n : Nat) :
    PayloadType → Nat × Bool × Option CommsServiceError
  | .Unknown v => (n, false, some (.UnknownPayloadType v))
  | .UDP => (n, false, none)
  | .GraphQL =>
    if n ≥ max_num_handlers then (n, false, some .NoAvailablePorts)
    else (n + 1, true, none)
  | .UDPDlStream =>
    if n ≥ max_num_handlers then (n, false, some .NoAvailablePorts)
    else (n + 1, true, none)

/-- Completion of a spawned handler: the closure decrements the counter
(service.rs 297-299 and 346-348).  In a real trace a completion only
happens while its handler is live, so the counter is positive; `Nat`
subtraction encodes the same lower bound. -/
def handlerDone (n : Nat) : Nat := n - 1

/-- One observable event of the read loop: a validated frame arriving, or
a previously spawned handler finishing. -/
inductive CommsEvent where
  | frame (t : PayloadType)
  | done
  deriving Repr, DecidableEq

/-- Effect of one event on the handler counter. -/
def commsStep (max_num_handlers n : Nat) : CommsEvent → Nat
  | .frame t => (dispatch max_num_handlers n t).1
  | .done => handlerDone n

/-- Handler counter after a sequence of events, starting from 0
(service.rs 199). -/
def commsRun (max_num_handlers : Nat) (events : List CommsEvent) : Nat :=
  events.foldl (commsStep max_num_handlers) 0

/-- `max` of `downlink_endpoint` (service.rs 494): the credit cap. -/
def downlinkMax : Nat := 32

/-- One downlink-worker dequeue (service.rs 568-585): the
`fetch_update` decrements the credit counter only when it is positive (so
the `AtomicU32` never wraps below 0); exactly when it succeeds, the worker
sends the peer one hint byte `max - min(previous_value, max)`. -/
def downlink_dequeue (k : Nat) : Nat × Option Nat :=
  match (if k > 0 then some (k - 1) else none) with
  | some k' => (k', some (downlinkMax - min k downlinkMax))
  | none => (k, none)

end KubosComms

namespace KubosSched

/-- The `SchedulerError` kinds of the scheduler service
(src/services/scheduler-service/src/error.rs) relevant to start/stop. -/
inductive SchedulerError where
  | TaskListParseError (err name : String)
  | TaskParseError (err description : String)
  | TaskTimeError (err description : String)
  | HmsParseError (err field : String)
  | StartError (err : String)
  | GenericError (err : String)
  deriving Repr, DecidableEq

/-- `SAFE_MODE` (scheduler.rs 41). -/
def SAFE_MODE : String := "safe"

def isTaskTimeError : SchedulerError → Bool
  | .TaskTimeError _ _ => true
  | _ => false

/-- The two fallible steps `check_start` performs for one task list
(scheduler.rs 193-204): the `validate_task_list` result and the
`start_task_list` (i.e. `schedule_tasks`) result. -/
structure ListOutcome where
  validate : Except SchedulerError Unit
  schedule : Except SchedulerError Unit

/-- `Scheduler::check_start` (scheduler.rs 193-206): for each task list of
the mode in order, run `validate_task_list` — a `TaskTimeError` is only
warned about and the list is still scheduled, any other error returns
immediately — then `start_task_list`, whose error also returns
immediately via `?`. -/
def check_start : List ListOutcome → Except SchedulerError Unit
  | [] => .ok ()
  | l :: rest =>
    match l.validate with
    | .error e =>
      if isTaskTimeError e then
        match l.schedule with
        | .error e' => .error e'
        | .ok _ => check_start rest
      else .error e
    | .ok _ =>
      match l.schedule with
      | .error e' => .error e'
      | .ok _ => check_start rest

/-- Whether `Scheduler::start` returned or terminated the process
(`panic!`, scheduler.rs 214). -/
inductive StartOutcome where
  | ok
  | panicked (msg : String)
  deriving Repr, DecidableEq

/-- `Scheduler::start` (scheduler.rs 209-229), over the task-list outcomes
of each mode and the currently active mode: when `check_start` of a
non-safe active mode fails, activate `safe` and restart (the recursive
`self.start()` re-reads the active mode, which is now `safe`); when the
safe mode itself fails, `panic!` terminates the process.  Returns the
outcome and the active mode afterwards.  `get_active_mode` and
`activate_mode` filesystem failures are outside this model. -/
def scheduler_start (modeLists : String → List ListOutcome) (active : String) :
    StartOutcome × String :=
  match check_start (modeLists active) with
  | .ok _ => (.ok, active)
  | .error _ =>
    if active = SAFE_MODE then (.panicked "Failed to start safe mode", active)
    else
      match check_start (modeLists SAFE_MODE) with
      | .ok _ => (.ok, SAFE_MODE)
      | .error _ => (.panicked "Failed to start safe mode", SAFE_MODE)

/-- A `SchedulerHandle` (scheduler.rs 45-48): the broadcast stop sender of
one task list, identified here by a numeric tag. -/
structure SchedulerHandle where
  stopper : Nat
  deriving Repr, DecidableEq

/-- `Scheduler::stop` (scheduler.rs 232-241): the loop iterates
`schedules_map.drain().take(1)` — at most ONE drained entry receives the
stop signal — while dropping the rest of the `Drain` iterator still clears
the map.  Given the map as an association list in drain order, returns the
map afterwards and the handles that were sent the stop signal. -/
def scheduler_stop (m : List (String × SchedulerHandle)) :
    List (String × SchedulerHandle) × List SchedulerHandle :=
  ([], (m.take 1).map (fun p => p.2))

/-- A telemetry datapoint as sent by `log_status_code_to_telemetry`
(app.rs 113-118): `DataPoint::now("app-exit", id, code)`. -/
structure DataPoint where
  subsystem : String
  parameter : String
  value : Int
  deriving Repr, DecidableEq

/-- Outcome of one subprocess launch inside `App::execute` (app.rs 59-91):
an exit with an observed code, an exit with no code, or a failure to fetch
status information. -/
inductive AttemptResult where
  | exited (code : Int)
  | noCode
  | startErr
  deriving Repr, DecidableEq

def isExit : AttemptResult → Bool
  | .exited _ => true
  | _ => false

/-- `log_status_code_to_telemetry(id, code)` (app.rs 96-125): the datapoint
sent for task `id` and exit `code`.  The best-effort config/socket failure
paths, which drop the datapoint silently, are outside the model. -/
def log_status_code_to_telemetry (id : Int) (code : Int) : DataPoint :=
  ⟨"app-exit", toString id, code⟩

/-- The retry loop of `App::execute` (app.rs 44-92).  `attempts k` is the
outcome of the `k`-th subprocess launch; `r` is the remaining `retry`
budget (3 at entry, checked at the top of the loop).  An observed exit
code is reported to telemetry when the task has an id — whatever the code
— and the loop breaks; a launch with no observed code decrements the
budget and retries after a backoff.  Returns the datapoints sent. -/
def app_execute_loop (attempts : Nat → AttemptResult) (id : Option Int) :
    Nat → Nat → List DataPoint
  | 0, _ => []
  | r + 1, k =>
    match attempts k with
    | .exited code =>
      match id with
      | some i => [log_status_code_to_telemetry i code]
      | none => []
    | _ => app_execute_loop attempts id r (k + 1)

/-- `App::execute` (app.rs 41-93) with its initial retry budget of 3. -/
def app_execute (attempts : Nat → AttemptResult) (id : Option Int) : List DataPoint :=
  app_execute_loop attempts id 3 0

end KubosSched

/-! ## Theorems -/

namespace KubosComms

theorem commsStep_le (maxH n : Nat) (ev : CommsEvent) (h : n ≤ maxH) :
    commsStep maxH n ev ≤ maxH := by
  cases ev with
  | frame t =>
    cases t with
    | Unknown v => exact h
    | UDP => exact h
    | GraphQL =>
      simp only [commsStep, dispatch]
      split
      · exact h
      · simp only []
        omega
    | UDPDlStream =>
      simp only [commsStep, dispatch]
      split
      · exact h
      · simp only []
        omega
  | done =>
    simp only [commsStep, handlerDone]
    omega

theorem commsRun_aux (maxH : Nat) :
    ∀ (l : List CommsEvent) (n : Nat), n ≤ maxH →
      List.foldl (commsStep maxH) n l ≤ maxH := by
  intro l
  induction l with
  | nil => intro n h; simpa using h
  | cons ev rest ih =>
    intro n h
    exact ih _ (commsStep_le maxH n ev h)

/-- **C5.** The concurrent-handler count never exceeds `max_num_handlers`:
starting from 0, no sequence of frame arrivals and handler completions pushes
the counter above the budget; a request (`GraphQL`) or stream (`UDPDlStream`)
frame arriving while the counter is at or above the budget is dropped with
`NoAvailablePorts` telemetry and no handler is spawned; otherwise the counter
is incremented before the handler is spawned (and each completion decrements
it). -/
theorem comms_handler_budget (maxH : Nat) :
    (∀ events, commsRun maxH events ≤ maxH) ∧
    (∀ n t, maxH ≤ n → (t = PayloadType.GraphQL ∨ t = PayloadType.UDPDlStream) →
      dispatch maxH n t = (n, false, some .NoAvailablePorts)) ∧
    (∀ n t, n < maxH → (t = PayloadType.GraphQL ∨ t = PayloadType.UDPDlStream) →
      dispatch maxH n t = (n + 1, true, none)) := by
  refine ⟨fun events => commsRun_aux maxH events 0 (Nat.zero_le _), ?_, ?_⟩
  · rintro n t hn (rfl | rfl) <;> simp [dispatch, hn]
  · rintro n t hn (rfl | rfl) <;> simp [dispatch, Nat.not_le.mpr hn]

/-- Witness for `comms_handler_budget` at `max_num_handlers = 1`: a second
concurrent request is dropped, and an admitted one increments the counter. -/
theorem comms_handler_budget_witness :
    commsRun 1 [.frame .GraphQL, .frame .GraphQL, .frame .UDPDlStream] ≤ 1 ∧
    dispatch 1 1 PayloadType.GraphQL = (1, false, some .NoAvailablePorts) ∧
    dispatch 1 0 PayloadType.UDPDlStream = (1, true, none) :=
  ⟨(comms_handler_budget 1).1 _,
   (comms_handler_budget 1).2.1 1 _ (by decide) (Or.inl rfl),
   (comms_handler_budget 1).2.2 0 _ (by decide) (Or.inr rfl)⟩

/-- **C6.** When the downlink worker dequeues a packet with `K` outstanding,
the credit counter is decremented with a floor of 0 (the guarded
`fetch_update` never drives the `AtomicU32` negative), and — whenever at
least one packet is outstanding — the one-byte hint sent to the producing
peer equals `max - min(K, max)` with `max = 32`, a value that always fits in
one byte. -/
theorem downlink_backpressure_hint (k : Nat) :
    ((downlink_dequeue k).1 : Int) = max ((k : Int) - 1) 0 ∧
    (1 ≤ k → (downlink_dequeue k).2 = some (downlinkMax - min k downlinkMax)) ∧
    (∀ h, (downlink_dequeue k).2 = some h → h ≤ 32) := by
  rcases Nat.eq_zero_or_pos k with rfl | hk
  · refine ⟨by decide, fun h => absurd h (by decide), fun h hh => ?_⟩
    simp [downlink_dequeue] at hh
  · have hd : downlink_dequeue k = (k - 1, some (downlinkMax - min k downlinkMax)) := by
      unfold downlink_dequeue
      simp [hk]
    rw [hd]
    refine ⟨by push_cast; omega, fun _ => rfl, fun h hh => ?_⟩
    have hv : downlinkMax - min k downlinkMax = h := by simpa using hh
    unfold downlinkMax at hv
    omega

/-- Witness for `downlink_backpressure_hint` at `K = 5` outstanding packets:
the counter drops to 4 and the hint byte is `32 - 5 = 27`. -/
theorem downlink_backpressure_hint_witness :
    ((downlink_dequeue 5).1 : Int) = max ((5 : Int) - 1) 0 ∧
    (downlink_dequeue 5).2 = some 27 := by
  refine ⟨(downlink_backpressure_hint 5).1, ?_⟩
  have h := (downlink_backpressure_hint 5).2.1 (by decide)
  simpa using h

end KubosComms

namespace KubosSched

/-- **C8 (code bug).** `Scheduler::stop` empties the handle map, but the
`drain().take(1)` loop sends the broadcast stop signal to at most ONE drained
handle: with two previously active task lists, the second handle never
receives the stop signal, contradicting the claim (and the function's own
comment, "Stops all running tasks and clears of list of scheduler
handles"). -/
theorem scheduler_stop_signals_only_one :
    scheduler_stop [("a", ⟨1⟩), ("b", ⟨2⟩)] = ([], [⟨1⟩]) ∧
    (⟨2⟩ : SchedulerHandle) ∉ (scheduler_stop [("a", ⟨1⟩), ("b", ⟨2⟩)]).2 ∧
    (scheduler_stop [("a", ⟨1⟩), ("b", ⟨2⟩)]).1 = [] :=
  ⟨rfl, by decide, rfl⟩

/-- **C7.** Under an active non-safe mode, a `check_start` failure (any task
list failing to validate with an error other than `TaskTimeError`, or failing
to schedule) activates the safe mode and restarts scheduling from it; a task
list whose validation fails only with `TaskTimeError` is merely warned about
and still scheduled; and a `check_start` failure of the safe mode itself
terminates the process. -/
theorem scheduler_safe_mode_failover (ml : String → List ListOutcome)
    (active : String) (e : SchedulerError) (l : ListOutcome)
    (rest : List ListOutcome) :
    (active ≠ SAFE_MODE → check_start (ml active) = .error e →
      (scheduler_start ml active).2 = SAFE_MODE ∧
      (scheduler_start ml active).1 =
        (match check_start (ml SAFE_MODE) with
         | .ok _ => StartOutcome.ok
         | .error _ => StartOutcome.panicked "Failed to start safe mode")) ∧
    (l.validate = .error e → isTaskTimeError e = true → l.schedule = .ok () →
      check_start (l :: rest) = check_start rest) ∧
    (check_start (ml SAFE_MODE) = .error e →
      scheduler_start ml SAFE_MODE = (.panicked "Failed to start safe mode", SAFE_MODE)) := by
  refine ⟨?_, ?_, ?_⟩
  · intro hne h
    unfold scheduler_start
    rw [h]
    simp only [hne, reduceIte]
    cases check_start (ml SAFE_MODE) <;> simp
  · intro hv ht hs
    conv_lhs => rw [check_start]
    simp only [hv, hs, ht, if_true]
  · intro h
    unfold scheduler_start
    rw [h]
    simp

/-- Witness for `scheduler_safe_mode_failover`: mode "nominal" has a task
list failing to parse, mode "safe" starts cleanly, so `start` fails over to
safe and returns; a `TaskTimeError`-only list is scheduled anyway. -/
theorem scheduler_safe_mode_failover_witness :
    (scheduler_start
        (fun mode => if mode = "nominal"
          then [⟨.error (.TaskListParseError "bad json" "list"), .ok ()⟩]
          else [⟨.ok (), .ok ()⟩])
        "nominal").2 = SAFE_MODE ∧
    check_start [⟨.error (.TaskTimeError "past" "t"), .ok ()⟩] = check_start [] := by
  constructor
  · exact ((scheduler_safe_mode_failover
      (fun mode => if mode = "nominal"
        then [⟨.error (.TaskListParseError "bad json" "list"), .ok ()⟩]
        else [⟨.ok (), .ok ()⟩])
      "nominal" (.TaskListParseError "bad json" "list") ⟨.ok (), .ok ()⟩ []).1
      (by decide) rfl).1
  · exact (scheduler_safe_mode_failover (fun _ => []) "safe"
      (.TaskTimeError "past" "t") ⟨.error (.TaskTimeError "past" "t"), .ok ()⟩ []).2.1
      rfl rfl rfl

/-- **C9 counterexample.** A scheduled task with id 1 whose subprocess exits
with code 0 DOES produce a telemetry datapoint `("app-exit", "1", 0)`: the
code calls `log_status_code_to_telemetry` for every observed exit code when a
task id is present, with no check that the code is non-zero — refuting "an
exit with code 0 produces no telemetry datapoint". -/
theorem app_exit_zero_telemetry_counterexample :
    app_execute (fun _ => .exited 0) (some 1) = [⟨"app-exit", "1", 0⟩] ∧
    app_execute (fun _ => .exited 0) (some 1) ≠ [] :=
  ⟨by decide, by decide⟩

theorem app_execute_loop_none (attempts : Nat → AttemptResult) :
    ∀ r k, app_execute_loop attempts none r k = [] := by
  intro r
  induction r with
  | zero => intro k; rfl
  | succ r ih =>
    intro k
    unfold app_execute_loop
    cases attempts k <;> simp [ih]

theorem app_execute_loop_exit (attempts : Nat → AttemptResult) (i c : Int) :
    ∀ (t r k : Nat), t < r →
      (∀ j, j < t → isExit (attempts (k + j)) = false) →
      attempts (k + t) = .exited c →
      app_execute_loop attempts (some i) r k =
        [⟨"app-exit", toString i, c⟩] := by
  intro t
  induction t with
  | zero =>
    intro r k hr _ hex
    match r, hr with
    | r + 1, _ =>
      unfold app_execute_loop
      rw [show k + 0 = k from rfl] at hex
      rw [hex]
      rfl
  | succ t ih =>
    intro r k hr hpre hex
    match r, hr with
    | r + 1, hr =>
      unfold app_execute_loop
      have h0 : isExit (attempts k) = false := by
        have := hpre 0 (Nat.succ_pos t)
        simpa using this
      cases hA : attempts k with
      | exited code => rw [hA] at h0; simp [isExit] at h0
      | noCode =>
        simp only []
        exact ih r (k + 1) (Nat.lt_of_succ_lt_succ hr)
          (fun j hj => by
            have := hpre (j + 1) (Nat.succ_lt_succ hj)
            simpa [Nat.add_assoc, Nat.add_comm 1 j] using this)
          (by
            have : k + 1 + t = k + (t + 1) := by omega
            rw [this]; exact hex)
      | startErr =>
        simp only []
        exact ih r (k + 1) (Nat.lt_of_succ_lt_succ hr)
          (fun j hj => by
            have := hpre (j + 1) (Nat.succ_lt_succ hj)
            simpa [Nat.add_assoc, Nat.add_comm 1 j] using this)
          (by
            have : k + 1 + t = k + (t + 1) := by omega
            rw [this]; exact hex)

theorem app_execute_loop_noexit (attempts : Nat → AttemptResult) (id : Option Int) :
    ∀ r k, (∀ j, j < r → isExit (attempts (k + j)) = false) →
      app_execute_loop attempts id r k = [] := by
  intro r
  induction r with
  | zero => intro k _; rfl
  | succ r ih =>
    intro k h
    unfold app_execute_loop
    have h0 : isExit (attempts k) = false := by
      have := h 0 (Nat.succ_pos r)
      simpa using this
    cases hA : attempts k with
    | exited code => rw [hA] at h0; simp [isExit] at h0
    | noCode =>
      exact ih (k + 1) (fun j hj => by
        have := h (j + 1) (Nat.succ_lt_succ hj)
        simpa [Nat.add_assoc, Nat.add_comm 1 j] using this)
    | startErr =>
      exact ih (k + 1) (fun j hj => by
        have := h (j + 1) (Nat.succ_lt_succ hj)
        simpa [Nat.add_assoc, Nat.add_comm 1 j] using this)

/-- **C9 amended.** A scheduled task's subprocess execution reports to the
telemetry sink on EVERY observed exit code — zero or not.  The first launch
within the 3-attempt retry budget that yields an exit code produces exactly
the datapoint `(subsystem="app-exit", parameter=task_id, value=exit_code)`
when the task has an id; a task without an id produces no datapoint, and so
does a run whose launches never yield an exit code within the budget. -/
theorem app_execute_telemetry_any_code (attempts : Nat → AttemptResult)
    (id : Option Int) :
    (id = none → app_execute attempts id = []) ∧
    (∀ i c k, id = some i → k < 3 →
      (∀ j, j < k → isExit (attempts j) = false) →
      attempts k = .exited c →
      app_execute attempts id = [⟨"app-exit", toString i, c⟩]) ∧
    ((∀ j, j < 3 → isExit (attempts j) = false) →
      app_execute attempts id = []) := by
  refine ⟨?_, ?_, ?_⟩
  · rintro rfl
    exact app_execute_loop_none attempts 3 0
  · rintro i c k rfl hk hpre hex
    exact app_execute_loop_exit attempts i c k 3 0 hk
      (fun j hj => by simpa using hpre j hj)
      (by simpa using hex)
  · intro h
    exact app_execute_loop_noexit attempts id 3 0 (fun j hj => by simpa using h j hj)

/-- Witness for `app_execute_telemetry_any_code`: the first launch fails to
start, the second exits with code 7, and the task id 9 yields exactly one
datapoint `("app-exit", "9", 7)`. -/
theorem app_execute_telemetry_any_code_witness :
    app_execute (fun k => if k = 0 then .startErr else .exited 7) (some 9) =
      [⟨"app-exit", "9", 7⟩] :=
  (app_execute_telemetry_any_code
      (fun k => if k = 0 then .startErr else .exited 7) (some 9)).2.1
    9 7 1 rfl (by decide) (by decide) (by decide)

end KubosSched

namespace KubosStorage

/-- **C10.** Calling `validate_file` with an explicit `num_chunks` rewrites the
hash's metadata with `chunk_size = None` and `file_path = None`, erasing any
previously stored chunk size and source-file reference, so that every
subsequent `load_chunk` for this hash takes the per-index fallback branch
(reads the `hash/<index>` file) for every filesystem state — the seek
optimization is gone. -/
theorem validate_file_rewrites_meta (d : HashDir) (n : Nat) (fs : FileSys) :
    validate_file d (some n) =
      .ok (validate_ranges n (dirEntries d),
           { d with meta := some ⟨n, none, none⟩ }) ∧
    (∀ i, load_chunk fs { d with meta := some ⟨n, none, none⟩ } i =
      match d.chunkFiles.lookup i with
      | some data => .ok data
      | none => .error (.StorageError s!"open chunk file {i}")) := by
  refine ⟨rfl, fun i => ?_⟩
  cases h : d.chunkFiles.lookup i <;>
    simp only [load_chunk, load_meta, h]

/-- **C4.** When `finalize_file` reassembles all chunks without a load error
but the recomputed hash of the assembled bytes differs from the hash
identifying the transfer, it deletes the entire `<prefix>/storage/<hash>`
directory — leaving no staged chunks or metadata for that hash — and returns
`HashMismatch` (the partially written target remains). -/
theorem finalize_hash_mismatch_deletes_dir (hashFn : List Nat → String)
    (fs : FileSys) (hash : String) (d : HashDir) (m : Meta) (d' : HashDir)
    (w : List Nat)
    (hm : d.meta = some m)
    (hcomplete : (validate_ranges m.num_chunks (dirEntries d)).1 = true)
    (hloop : reassembleLoop fs m.num_chunks 0 d [] none = ⟨none, d', w, none⟩)
    (hhash : hashFn w ≠ hash) :
    finalize_file hashFn fs hash d = ⟨.error .HashMismatch, none, some w⟩ := by
  unfold finalize_file
  simp only [validate_file, hm, load_meta, hcomplete, hloop, Bool.not_true,
    Bool.false_eq_true, if_false, reduceIte, hhash]

/-- Witness for `finalize_hash_mismatch_deletes_dir`: one staged chunk `[5]`
whose digest `"x"` differs from the transfer hash `"y"`; finalize deletes the
whole staging directory and fails with `HashMismatch`. -/
theorem finalize_hash_mismatch_deletes_dir_witness :
    finalize_file (fun _ => "x") (fun _ => none) "y"
        ⟨[(0, [5])], some ⟨1, none, none⟩⟩ =
      ⟨.error .HashMismatch, none, some [5]⟩ :=
  finalize_hash_mismatch_deletes_dir (fun _ => "x") (fun _ => none) "y"
    ⟨[(0, [5])], some ⟨1, none, none⟩⟩ ⟨1, none, none⟩
    ⟨[(0, [5])], some ⟨1, none, none⟩⟩ [5] rfl (by decide) (by decide)
    (by decide)

/-- **C3 counterexample.** Both chunk loads fail during reassembly (the
metadata points chunk reads at a source file that is gone); the error
`finalize_file` returns is the one for chunk 1 — the LAST failing index —
not the first such load error (chunk 0), refuting the claim as stated.  Both
failing chunk files were deleted and iteration continued to the end. -/
theorem finalize_last_error_counterexample :
    (finalize_file (fun _ => "") ceFs "h" ceDir).result =
        .error (.StorageError "open chunk file 1") ∧
    (finalize_file (fun _ => "") ceFs "h" ceDir).result ≠
        .error (.StorageError "open chunk file 0") ∧
    (finalize_file (fun _ => "") ceFs "h" ceDir).dir =
        some ⟨[], some ⟨2, some 1, some "gone"⟩⟩ :=
  ⟨by decide, by decide, by decide⟩

end KubosStorage

namespace KubosStorage

theorem lookup_cons_eq {α : Type} (k j : Nat) (v : α) (tl : List (Nat × α)) :
    ((k, v) :: tl).lookup j = if j = k then some v else tl.lookup j := by
  simp only [List.lookup]
  by_cases h : j = k
  · simp [h]
  · rw [if_neg h]
    have hb : (j == k) = false := beq_false_of_ne h
    rw [hb]

theorem lookup_filter_ne {α : Type} (l : List (Nat × α)) (i j : Nat) :
    (l.filter (fun q => q.1 != i)).lookup j =
      if j = i then none else l.lookup j := by
  induction l with
  | nil => simp
  | cons hd tl ih =>
    rcases hd with ⟨k, v⟩
    by_cases hki : k = i
    · have hfc : ((k, v) :: tl).filter (fun q => q.1 != i) =
          tl.filter (fun q => q.1 != i) := by
        simp [List.filter_cons, hki]
      rw [hfc, ih, lookup_cons_eq]
      by_cases hji : j = i
      · rw [if_pos hji, if_pos hji]
      · rw [if_neg hji, if_neg hji, if_neg (fun h => hji (hki ▸ h))]
    · have hfc : ((k, v) :: tl).filter (fun q => q.1 != i) =
          (k, v) :: tl.filter (fun q => q.1 != i) := by
        simp [List.filter_cons, bne_iff_ne.mpr hki]
      rw [hfc, lookup_cons_eq, ih]
      by_cases hjk : j = k
      · have hjine : ¬ j = i := by rw [hjk]; exact hki
        rw [if_pos hjk, if_neg hjine, lookup_cons_eq, if_pos hjk]
      · rw [if_neg hjk]
        by_cases hji : j = i
        · rw [if_pos hji, if_pos hji]
        · rw [if_neg hji, if_neg hji, lookup_cons_eq, if_neg hjk]

theorem load_chunk_seek_none (fs : FileSys) (d : HashDir) (m : Meta)
    (cs : Nat) (p : String) (hm : d.meta = some m) (hcs : m.chunk_size = some cs)
    (hp : m.file_path = some p) (hfs : fs p = none) (i : Nat) :
    load_chunk fs d i = .error (.StorageError s!"open chunk file {i}") := by
  simp only [load_chunk, load_meta, hm, hcs, hp, hfs]

theorem reassembleLoop_all_fail (fs : FileSys) (m : Meta) (cs : Nat) (p : String)
    (hcs : m.chunk_size = some cs) (hp : m.file_path = some p) (hfs : fs p = none) :
    ∀ (k i : Nat) (d : HashDir) (acc : List Nat) (err : Option ProtocolError),
      d.meta = some m →
      (∀ j, i ≤ j → j < i + (k + 1) → (d.chunkFiles.lookup j).isSome) →
      ∃ df : HashDir,
        reassembleLoop fs (k + 1) i d acc err =
          ⟨none, df, acc, some (.StorageError s!"open chunk file {i + k}")⟩ ∧
        df.meta = some m ∧
        (∀ j, df.chunkFiles.lookup j =
          if i ≤ j ∧ j < i + (k + 1) then none else d.chunkFiles.lookup j) := by
  intro k
  induction k with
  | zero =>
    intro i d acc err hm hpres
    have hload := load_chunk_seek_none fs d m cs p hm hcs hp hfs i
    have hpres_i : (d.chunkFiles.lookup i).isSome = true := hpres i le_rfl (by omega)
    refine ⟨{ d with chunkFiles := d.chunkFiles.filter (fun q => q.1 != i) }, ?_, hm, ?_⟩
    · conv_lhs => rw [reassembleLoop]
      simp only [hload, delete_chunk, hpres_i, eq_self_iff_true, if_true]
      rw [reassembleLoop]
      simp
    · intro j
      rw [lookup_filter_ne]
      have hiff : (i ≤ j ∧ j < i + (0 + 1)) ↔ j = i := by omega
      simp only [hiff]
  | succ k ih =>
    intro i d acc err hm hpres
    have hload := load_chunk_seek_none fs d m cs p hm hcs hp hfs i
    have hpres_i : (d.chunkFiles.lookup i).isSome = true := hpres i le_rfl (by omega)
    have hstep : reassembleLoop fs (k + 1 + 1) i d acc err =
        reassembleLoop fs (k + 1) (i + 1)
          { d with chunkFiles := d.chunkFiles.filter (fun q => q.1 != i) } acc
          (some (.StorageError s!"open chunk file {i}")) := by
      conv_lhs => rw [reassembleLoop]
      simp only [hload, delete_chunk, hpres_i, eq_self_iff_true, if_true]
    have hpres' : ∀ j, i + 1 ≤ j → j < i + 1 + (k + 1) →
        (({ d with chunkFiles := d.chunkFiles.filter (fun q => q.1 != i) } :
          HashDir).chunkFiles.lookup j).isSome := by
      intro j h1 h2
      show ((d.chunkFiles.filter (fun q => q.1 != i)).lookup j).isSome
      rw [lookup_filter_ne, if_neg (by omega)]
      exact hpres j (by omega) (by omega)
    obtain ⟨df, hdf, hdfm, hdfl⟩ := ih (i + 1)
      { d with chunkFiles := d.chunkFiles.filter (fun q => q.1 != i) } acc
      (some (.StorageError s!"open chunk file {i}")) hm hpres'
    refine ⟨df, ?_, hdfm, ?_⟩
    · rw [hstep, hdf]
      have harith : i + 1 + k = i + (k + 1) := by omega
      rw [harith]
    · intro j
      rw [hdfl j]
      by_cases hj : i + 1 ≤ j ∧ j < i + 1 + (k + 1)
      · rw [if_pos hj, if_pos (by omega)]
      · rw [if_neg hj]
        show (d.chunkFiles.filter (fun q => q.1 != i)).lookup j = _
        rw [lookup_filter_ne]
        by_cases hji : j = i
        · rw [if_pos hji, if_pos (by omega)]
        · rw [if_neg hji, if_neg (by omega)]

/-- **C3 amended.** During `finalize_file`'s reassembly loop, when
`load_chunk` fails for one or more chunk indices, the failing chunk files
are each deleted and iteration continues through the remaining chunks — but
the error returned to the caller is the LAST such load error encountered,
not the first: `load_chunk_err` is overwritten on every failure.  Stated
for a staging directory whose metadata still points chunk reads at a
source file that no longer exists, so that every chunk load fails. -/
theorem finalize_reports_last_load_error (hashFn : List Nat → String)
    (fs : FileSys) (hash : String) (d : HashDir) (m : Meta) (cs : Nat) (p : String)
    (hm : d.meta = some m) (hcs : m.chunk_size = some cs)
    (hp : m.file_path = some p) (hfs : fs p = none) (hn : 0 < m.num_chunks)
    (hpres : ∀ j, j < m.num_chunks → (d.chunkFiles.lookup j).isSome)
    (hcomplete : (validate_ranges m.num_chunks (dirEntries d)).1 = true) :
    (finalize_file hashFn fs hash d).result =
        .error (.StorageError s!"open chunk file {m.num_chunks - 1}") ∧
    (∃ df : HashDir, (finalize_file hashFn fs hash d).dir = some df ∧
      ∀ j, j < m.num_chunks → df.chunkFiles.lookup j = none) ∧
    (finalize_file hashFn fs hash d).target = some [] := by
  obtain ⟨k, hk⟩ : ∃ k, m.num_chunks = k + 1 :=
    ⟨m.num_chunks - 1, by omega⟩
  obtain ⟨df, hdf, hdfm, hdfl⟩ := reassembleLoop_all_fail fs m cs p hcs hp hfs
    k 0 d [] none hm (fun j _ h2 => hpres j (by omega))
  have hcomplete' : (validate_ranges (k + 1) (dirEntries d)).1 = true := hk ▸ hcomplete
  have hfin : finalize_file hashFn fs hash d =
      ⟨.error (.StorageError s!"open chunk file {0 + k}"), some df, some []⟩ := by
    unfold finalize_file
    simp only [validate_file, hm, load_meta, hk, hdf, hcomplete', Bool.not_true,
      Bool.false_eq_true, if_false, reduceIte]
  rw [hfin]
  have harith : 0 + k = m.num_chunks - 1 := by omega
  rw [harith]
  refine ⟨rfl, ⟨df, rfl, ?_⟩, rfl⟩
  intro j hj
  rw [hdfl j, if_pos (by omega)]

/-- Witness for `finalize_reports_last_load_error` on the concrete
directory `ceDir` (two staged chunks, metadata seek path gone): finalize
returns chunk 1's load error and both chunk files are deleted. -/
theorem finalize_reports_last_load_error_witness :
    (finalize_file (fun _ => "") ceFs "h" ceDir).result =
        .error (.StorageError "open chunk file 1") ∧
    (∃ df : HashDir, (finalize_file (fun _ => "") ceFs "h" ceDir).dir = some df ∧
      ∀ j, j < 2 → df.chunkFiles.lookup j = none) ∧
    (finalize_file (fun _ => "") ceFs "h" ceDir).target = some [] :=
  finalize_reports_last_load_error (fun _ => "") ceFs "h" ceDir
    ⟨2, some 1, some "gone"⟩ 1 "gone" rfl rfl rfl rfl (by decide)
    (by decide) (by decide)

end KubosStorage

namespace KubosStorage

theorem covered_nil (i : Int) : ¬ Covered [] i := by
  rintro ⟨q, hq, _⟩
  exact absurd hq (List.not_mem_nil q)

theorem covered_cons (q : Nat × Nat) (L : List (Nat × Nat)) (i : Int) :
    Covered (q :: L) i ↔ ((q.1 : Int) ≤ i ∧ i < (q.2 : Int)) ∨ Covered L i := by
  unfold Covered
  constructor
  · rintro ⟨r, hr, h1, h2⟩
    rcases List.mem_cons.mp hr with rfl | hmem
    · exact Or.inl ⟨h1, h2⟩
    · exact Or.inr ⟨r, hmem, h1, h2⟩
  · rintro (⟨h1, h2⟩ | ⟨r, hmem, h1, h2⟩)
    · exact ⟨q, List.mem_cons_self q L, h1, h2⟩
    · exact ⟨r, List.mem_cons_of_mem q hmem, h1, h2⟩

theorem lastPrev_mem (l : List Int) : ∀ p : Int, l ≠ [] → lastPrev l p ∈ l := by
  induction l with
  | nil => intro p h; exact absurd rfl h
  | cons e rest ih =>
    intro p _
    show lastPrev rest e ∈ e :: rest
    by_cases hr : rest = []
    · subst hr
      simp [lastPrev]
    · exact List.mem_cons_of_mem e (ih e hr)

theorem lastPrev_ge (l : List Int) (p : Int) (h : ∀ e ∈ l, p < e) :
    p ≤ lastPrev l p := by
  cases l with
  | nil => exact le_refl p
  | cons e rest =>
    exact le_of_lt (h _ (lastPrev_mem (e :: rest) p (by simp)))

theorem gapCount_zero_mem (l : List Int) :
    ∀ p : Int, List.Sorted (· < ·) l → (∀ e ∈ l, p < e) → gapCount l p = 0 →
      ∀ i : Int, p < i → i ≤ lastPrev l p → i ∈ l := by
  induction l with
  | nil =>
    intro p _ _ _ i h1 h2
    exact absurd (lt_of_lt_of_le h1 h2) (lt_irrefl p)
  | cons e rest ih =>
    intro p hs hgt hgc i h1 h2
    obtain ⟨hhead, hrest⟩ := List.sorted_cons.mp hs
    have hpe : p < e := hgt e (List.mem_cons_self e rest)
    have hgap : ¬ (e - p > 1) := by
      by_contra hc
      simp only [gapCount, if_pos hc] at hgc
      omega
    have heq : e = p + 1 := by omega
    have hgc' : gapCount rest e = 0 := by
      simp only [gapCount, if_neg hgap] at hgc
      omega
    have hlast : lastPrev (e :: rest) p = lastPrev rest e := rfl
    rw [hlast] at h2
    by_cases hie : i ≤ e
    · have : i = e := by omega
      rw [this]
      exact List.mem_cons_self e rest
    · have : i ∈ rest := ih e hrest hhead hgc' i (by omega) h2
      exact List.mem_cons_of_mem e this

theorem scanEntries_spec (l : List Int) :
    ∀ (prev : Int) (m : Nat),
    List.Sorted (· < ·) l → (∀ e ∈ l, prev < e) → -1 ≤ prev →
    gapCount l prev ≤ m → 0 < m →
    (scanEntries l prev m).2.2 = m - gapCount l prev ∧
    ((scanEntries l prev m).2.2 ≠ 0 → (scanEntries l prev m).2.1 = lastPrev l prev) ∧
    (scanEntries l prev m).1.length = gapCount l prev ∧
    (∀ q ∈ (scanEntries l prev m).1,
      prev < (q.1 : Int) ∧ q.1 < q.2 ∧ (q.2 : Int) ≤ lastPrev l prev) ∧
    List.Chain' (fun q r => q.2 < r.1) (scanEntries l prev m).1 ∧
    (∀ i : Int, Covered (scanEntries l prev m).1 i ↔
      (prev < i ∧ i < lastPrev l prev ∧ i ∉ l)) := by
  induction l with
  | nil =>
    intro prev m _ _ _ _ _
    refine ⟨rfl, fun _ => rfl, rfl, by simp [scanEntries], by simp [scanEntries], ?_⟩
    intro i
    show Covered [] i ↔ _
    constructor
    · intro h; exact absurd h (covered_nil i)
    · rintro ⟨h1, h2, _⟩
      show Covered [] i
      exact absurd (lt_trans h1 h2) (lt_irrefl prev)
  | cons e rest ih =>
    intro prev m hs hgt hprev hgc hm
    obtain ⟨hhead, hrest⟩ := List.sorted_cons.mp hs
    have hpe : prev < e := hgt e (List.mem_cons_self e rest)
    have he1 : -1 ≤ e := by omega
    have hlast : lastPrev (e :: rest) prev = lastPrev rest e := rfl
    have helast : e ≤ lastPrev rest e := lastPrev_ge rest e hhead
    by_cases hgap : e - prev > 1
    · have hgceq : gapCount (e :: rest) prev = 1 + gapCount rest e := by
        simp [gapCount, hgap]
      by_cases hm1 : m - 1 = 0
      · -- cap reached: push the pair and break
        have hscan : scanEntries (e :: rest) prev m =
            ([((prev + 1).toNat, e.toNat)], prev, 0) := by
          rw [scanEntries, if_pos hgap, if_pos hm1]
        have hgc0 : gapCount rest e = 0 := by
          rw [hgceq] at hgc
          omega
        have h22 : (scanEntries (e :: rest) prev m).2.2 = 0 := by rw [hscan]
        have h1l : (scanEntries (e :: rest) prev m).1 =
            [((prev + 1).toNat, e.toNat)] := by rw [hscan]
        rw [hgceq, hlast, hgc0, h22, h1l]
        refine ⟨by omega, fun h => absurd rfl h, by simp, ?_, by simp, ?_⟩
        · intro q hq
          rcases List.mem_singleton.mp hq with rfl
          refine ⟨?_, ?_, ?_⟩
          · show prev < ((prev + 1).toNat : Int)
            omega
          · show (prev + 1).toNat < e.toNat
            omega
          · show (e.toNat : Int) ≤ lastPrev rest e
            omega
        · intro i
          rw [covered_cons]
          constructor
          · rintro (⟨h1, h2⟩ | hc)
            · have h1' : ((prev + 1).toNat : Int) ≤ i := h1
              have h2' : i < (e.toNat : Int) := h2
              have hie : i < e := by omega
              refine ⟨by omega, by omega, ?_⟩
              intro hmem
              rcases List.mem_cons.mp hmem with rfl | hmem'
              · omega
              · exact absurd (hhead i hmem') (by omega)
            · exact absurd hc (covered_nil i)
          · rintro ⟨h1, h2, h3⟩
            by_cases hie : i < e
            · refine Or.inl ⟨?_, ?_⟩
              · show ((prev + 1).toNat : Int) ≤ i
                omega
              · show i < (e.toNat : Int)
                omega
            · exfalso
              have hige : e < i := by
                rcases lt_or_eq_of_le (not_lt.mp hie) with h | h
                · exact h
                · exact absurd (List.mem_cons_self e rest) (h ▸ h3)
              have : i ∈ rest := gapCount_zero_mem rest e hrest hhead hgc0 i hige (by omega)
              exact h3 (List.mem_cons_of_mem e this)
      · -- push the pair and continue
        have hscan : scanEntries (e :: rest) prev m =
            (((prev + 1).toNat, e.toNat) :: (scanEntries rest e (m - 1)).1,
             (scanEntries rest e (m - 1)).2.1, (scanEntries rest e (m - 1)).2.2) := by
          rw [scanEntries, if_pos hgap, if_neg hm1]
        obtain ⟨ih1, ih2, ih3, ih4, ih5, ih6⟩ :=
          ih e (m - 1) hrest hhead he1 (by rw [hgceq] at hgc; omega) (by omega)
        have h22 : (scanEntries (e :: rest) prev m).2.2 =
            (scanEntries rest e (m - 1)).2.2 := by rw [hscan]
        have h21 : (scanEntries (e :: rest) prev m).2.1 =
            (scanEntries rest e (m - 1)).2.1 := by rw [hscan]
        have h1l : (scanEntries (e :: rest) prev m).1 =
            ((prev + 1).toNat, e.toNat) :: (scanEntries rest e (m - 1)).1 := by
          rw [hscan]
        rw [hgceq, hlast, h22, h21, h1l]
        refine ⟨by rw [ih1]; omega, ih2, by rw [List.length_cons, ih3]; omega, ?_, ?_, ?_⟩
        · intro q hq
          rcases List.mem_cons.mp hq with rfl | hmem
          · refine ⟨?_, ?_, ?_⟩
            · show prev < ((prev + 1).toNat : Int)
              omega
            · show (prev + 1).toNat < e.toNat
              omega
            · show (e.toNat : Int) ≤ lastPrev rest e
              omega
          · obtain ⟨hq1, hq2, hq3⟩ := ih4 q hmem
            exact ⟨by omega, hq2, hq3⟩
        · refine List.Chain'.cons' ih5 ?_
          intro y hy
          have hymem : y ∈ (scanEntries rest e (m - 1)).1 :=
            List.mem_of_mem_head? hy
          obtain ⟨hy1, _, _⟩ := ih4 y hymem
          show ((prev + 1).toNat, e.toNat).2 < y.1
          have : (e.toNat : Int) < (y.1 : Int) := by omega
          exact_mod_cast this
        · intro i
          rw [covered_cons, ih6 i]
          constructor
          · rintro (⟨h1, h2⟩ | ⟨h1, h2, h3⟩)
            · have h1' : ((prev + 1).toNat : Int) ≤ i := h1
              have h2' : i < (e.toNat : Int) := h2
              refine ⟨by omega, by omega, ?_⟩
              intro hmem
              rcases List.mem_cons.mp hmem with rfl | hmem'
              · omega
              · exact absurd (hhead i hmem') (by omega)
            · refine ⟨by omega, h2, ?_⟩
              intro hmem
              rcases List.mem_cons.mp hmem with rfl | hmem'
              · exact absurd h1 (lt_irrefl i)
              · exact h3 hmem'
          · rintro ⟨h1, h2, h3⟩
            by_cases hie : i < e
            · refine Or.inl ⟨?_, ?_⟩
              · show ((prev + 1).toNat : Int) ≤ i
                omega
              · show i < (e.toNat : Int)
                omega
            · have hige : e < i := by
                rcases lt_or_eq_of_le (not_lt.mp hie) with h | h
                · exact h
                · exact absurd (List.mem_cons_self e rest) (h ▸ h3)
              exact Or.inr ⟨hige, h2, fun hmem => h3 (List.mem_cons_of_mem e hmem)⟩
    · -- no gap: e = prev + 1
      have heq : e = prev + 1 := by omega
      have hscan : scanEntries (e :: rest) prev m = scanEntries rest e m := by
        rw [scanEntries, if_neg hgap]
      have hgceq : gapCount (e :: rest) prev = gapCount rest e := by
        simp [gapCount, hgap]
      obtain ⟨ih1, ih2, ih3, ih4, ih5, ih6⟩ :=
        ih e m hrest hhead he1 (by rw [hgceq] at hgc; omega) hm
      rw [hscan, hgceq, hlast]
      refine ⟨ih1, ih2, ih3, ?_, ih5, ?_⟩
      · intro q hq
        obtain ⟨hq1, hq2, hq3⟩ := ih4 q hq
        exact ⟨by omega, hq2, hq3⟩
      · intro i
        rw [ih6 i]
        constructor
        · rintro ⟨h1, h2, h3⟩
          refine ⟨by omega, h2, ?_⟩
          intro hmem
          rcases List.mem_cons.mp hmem with rfl | hmem'
          · exact absurd h1 (lt_irrefl i)
          · exact h3 hmem'
        · rintro ⟨h1, h2, h3⟩
          have hine : i ≠ e := fun h => h3 (h ▸ List.mem_cons_self e rest)
          refine ⟨by omega, h2, fun hmem => h3 (List.mem_cons_of_mem e hmem)⟩

end KubosStorage

namespace KubosStorage

theorem covered_append (L1 L2 : List (Nat × Nat)) (i : Int) :
    Covered (L1 ++ L2) i ↔ Covered L1 i ∨ Covered L2 i := by
  unfold Covered
  constructor
  · rintro ⟨q, hq, h⟩
    rcases List.mem_append.mp hq with h1 | h2
    · exact Or.inl ⟨q, h1, h⟩
    · exact Or.inr ⟨q, h2, h⟩
  · rintro (⟨q, hq, h⟩ | ⟨q, hq, h⟩)
    · exact ⟨q, List.mem_append_left L2 hq, h⟩
    · exact ⟨q, List.mem_append_right L1 hq, h⟩

theorem lastPrev_max (l : List Int) :
    ∀ p : Int, List.Sorted (· < ·) l → (∀ e ∈ l, p < e) →
      ∀ x ∈ l, x ≤ lastPrev l p := by
  induction l with
  | nil => intro p _ _ x hx; exact absurd hx (List.not_mem_nil x)
  | cons e rest ih =>
    intro p hs hgt x hx
    obtain ⟨hhead, hrest⟩ := List.sorted_cons.mp hs
    show x ≤ lastPrev rest e
    rcases List.mem_cons.mp hx with rfl | hmem
    · exact lastPrev_ge rest x hhead
    · exact ih e hrest hhead x hmem

theorem validate_ranges_complete_iff (N : Nat) (entries : List Int) :
    (validate_ranges N entries).1 = true ↔ (validate_ranges N entries).2 = [] := by
  unfold validate_ranges
  exact List.isEmpty_iff

theorem validate_ranges_spec (N : Nat) (entries : List Int)
    (hs : List.Sorted (· < ·) entries)
    (hb : ∀ e ∈ entries, 0 ≤ e ∧ e < (N : Int))
    (hrc : runCount N entries ≤ 186) :
    (∀ i : Nat, i < N →
      (Covered (validate_ranges N entries).2 i ↔ (i : Int) ∉ entries)) ∧
    (∀ q ∈ (validate_ranges N entries).2, q.1 < q.2 ∧ q.2 ≤ N) ∧
    List.Chain' (fun q r => q.2 < r.1) (validate_ranges N entries).2 ∧
    (validate_ranges N entries).2.length ≤ 186 ∧
    ((validate_ranges N entries).1 = true ↔ (validate_ranges N entries).2 = []) := by
  have hgt : ∀ e ∈ entries, (-1 : Int) < e := fun e he => by
    have := (hb e he).1
    omega
  have hsort_le : List.Sorted (· ≤ ·) entries := hs.imp le_of_lt
  have hsorteq : entries.insertionSort (· ≤ ·) = entries :=
    List.Sorted.insertionSort_eq hsort_le
  have hGle : gapCount entries (-1) ≤ 186 := by
    unfold runCount at hrc
    split at hrc <;> omega
  obtain ⟨s1, s2, s3, s4, s5, s6⟩ :=
    scanEntries_spec entries (-1) 186 hs hgt (le_refl (-1)) hGle (by norm_num)
  have hLP1 : (-1 : Int) ≤ lastPrev entries (-1) := lastPrev_ge entries (-1) hgt
  have hLP2 : lastPrev entries (-1) < (N : Int) := by
    by_cases hne : entries = []
    · subst hne
      show ((-1 : Int) < (N : Int))
      omega
    · exact (hb _ (lastPrev_mem entries (-1) hne)).2
  have hmax : ∀ x ∈ entries, x ≤ lastPrev entries (-1) :=
    lastPrev_max entries (-1) hs hgt
  have hvf : (validate_ranges N entries).2 =
      (scanEntries entries (-1) 186).1 ++
        trailingRange N (scanEntries entries (-1) 186).2.1
          (scanEntries entries (-1) 186).2.2 := by
    unfold validate_ranges
    rw [hsorteq]
  have hLPnonneg_of_mem : ∀ i : Nat, (i : Int) = lastPrev entries (-1) →
      (lastPrev entries (-1)) ∈ entries := by
    intro i hi
    by_cases hne : entries = []
    · exfalso
      subst hne
      show False
      have : lastPrev ([] : List Int) (-1) = -1 := rfl
      omega
    · exact lastPrev_mem entries (-1) hne
  refine ⟨?_, ?_, ?_, ?_, validate_ranges_complete_iff N entries⟩
  case _ =>
    -- coverage
    intro i hiN
    rw [hvf, covered_append, s6 (i : Int)]
    by_cases hNT : (N : Int) - lastPrev entries (-1) = 1
    · -- no trailing range needed
      have hT : trailingRange N (scanEntries entries (-1) 186).2.1
          (scanEntries entries (-1) 186).2.2 = [] := by
        unfold trailingRange
        by_cases hm0 : (scanEntries entries (-1) 186).2.2 = 0
        · rw [if_neg]
          rintro ⟨h1, _⟩
          exact h1 hm0
        · rw [s2 hm0, if_neg]
          rintro ⟨_, h2⟩
          exact h2 hNT
      rw [hT]
      constructor
      · rintro (⟨_, _, h3⟩ | hc)
        · exact h3
        · exact absurd hc (covered_nil (i : Int))
      · intro hnotmem
        left
        refine ⟨by omega, ?_, hnotmem⟩
        by_cases hieq : (i : Int) = lastPrev entries (-1)
        · exact absurd (hieq ▸ hLPnonneg_of_mem i hieq) hnotmem
        · have : (i : Int) < (N : Int) := by omega
          omega
    · -- trailing range present
      have hGlt : gapCount entries (-1) < 186 := by
        unfold runCount at hrc
        rw [if_pos hNT] at hrc
        omega
      have hm0 : (scanEntries entries (-1) 186).2.2 ≠ 0 := by
        rw [s1]
        omega
      have hT : trailingRange N (scanEntries entries (-1) 186).2.1
          (scanEntries entries (-1) 186).2.2 =
          [((lastPrev entries (-1) + 1).toNat, N)] := by
        unfold trailingRange
        rw [s2 hm0, if_pos ⟨hm0, hNT⟩]
      rw [hT, covered_cons]
      have hsing : ∀ j : Int,
          ((((lastPrev entries (-1) + 1).toNat : Nat) : Int) ≤ j ∧ j < (N : Int)) ↔
          (lastPrev entries (-1) < j ∧ j < (N : Int)) := by
        intro j
        omega
      constructor
      · rintro (⟨_, _, h3⟩ | (⟨h1, h2⟩ | hc))
        · exact h3
        · have h1' : ((lastPrev entries (-1) + 1).toNat : Int) ≤ (i : Int) := h1
          intro hmem
          have := hmax _ hmem
          omega
        · exact absurd hc (covered_nil (i : Int))
      · intro hnotmem
        by_cases hilt : (i : Int) < lastPrev entries (-1)
        · exact Or.inl ⟨by omega, hilt, hnotmem⟩
        · by_cases hieq : (i : Int) = lastPrev entries (-1)
          · exact absurd (hieq ▸ hLPnonneg_of_mem i hieq) hnotmem
          · refine Or.inr (Or.inl ⟨?_, ?_⟩)
            · show ((lastPrev entries (-1) + 1).toNat : Int) ≤ (i : Int)
              omega
            · show (i : Int) < ((N : Nat) : Int)
              omega
  case _ =>
    -- per-range bounds
    intro q hq
    rw [hvf] at hq
    rcases List.mem_append.mp hq with hmem | hmem
    · obtain ⟨_, hq2, hq3⟩ := s4 q hmem
      refine ⟨hq2, ?_⟩
      have : (q.2 : Int) < (N : Int) := by omega
      omega
    · unfold trailingRange at hmem
      split at hmem
      · rcases List.mem_singleton.mp hmem with rfl
        rename_i hcond
        obtain ⟨hm0, hNT⟩ := hcond
        have hprev : (scanEntries entries (-1) 186).2.1 = lastPrev entries (-1) :=
          s2 hm0
        rw [hprev]
        constructor
        · show (lastPrev entries (-1) + 1).toNat < N
          omega
        · exact le_refl N
      · exact absurd hmem (List.not_mem_nil q)
  case _ =>
    -- ascending order
    rw [hvf]
    rw [List.chain'_append]
    refine ⟨s5, ?_, ?_⟩
    · unfold trailingRange
      split
      · exact List.chain'_singleton _
      · exact List.chain'_nil
    · intro x hx y hy
      have hxmem : x ∈ (scanEntries entries (-1) 186).1 :=
        List.mem_of_mem_getLast? hx
      obtain ⟨_, _, hx3⟩ := s4 x hxmem
      unfold trailingRange at hy
      split at hy
      · rename_i hcond
        obtain ⟨hm0, _⟩ := hcond
        rw [s2 hm0] at hy
        have : y = ((lastPrev entries (-1) + 1).toNat, N) := by
          cases hy
          rfl
        rw [this]
        show x.2 < (lastPrev entries (-1) + 1).toNat
        omega
      · simp at hy
  case _ =>
    -- length cap
    rw [hvf, List.length_append, s3]
    unfold trailingRange
    by_cases hNT : (N : Int) - lastPrev entries (-1) = 1
    · split
      · rename_i hcond
        obtain ⟨hm0, hc2⟩ := hcond
        rw [s2 hm0] at hc2
        exact absurd hNT hc2
      · simp only [List.length_nil]
        omega
    · have hGlt : gapCount entries (-1) < 186 := by
        unfold runCount at hrc
        rw [if_pos hNT] at hrc
        omega
      split
      · simp only [List.length_singleton]
        omega
      · simp only [List.length_nil]
        omega

end KubosStorage

namespace KubosStorage

set_option maxRecDepth 10000 in
/-- **C1 counterexample.** The claim's "exactly cover the complement" fails
once the complement has more than 186 maximal runs: with `num_chunks = 374`
and exactly the odd indices present, the complement `{0, 2, ..., 372}` has
187 runs; the scan stops at the 186-range cap, so the missing index 372 is
not covered by any returned range. -/
theorem validate_file_cap_counterexample :
    (372 : Int) ∉ ceEntries ∧
    ¬ Covered (validate_ranges 374 ceEntries).2 372 ∧
    (validate_ranges 374 ceEntries).2.length = 186 := by decide

/-- **C1 amended.** For every chunk count `N` and every subset `P ⊆ [0, N)` of
present indices (given as the strictly ascending list `entries`) whose
complement decomposes into at most 186 maximal runs (`runCount N entries`),
`validate_file`'s `(complete, missing_ranges)` satisfies: the half-open
`[start, end)` ranges exactly cover the complement of `P` in `[0, N)`; they
are listed in ascending order (each range nonempty, ranges strictly
separated); at most 186 ranges are emitted (the cap, including the trailing
range when the last present index is below `N - 1`); and `complete` is true
iff the range list is empty.  Without the run-count bound the cap truncates
the list (see the counterexample). -/
theorem validate_file_missing_ranges (N : Nat) (entries : List Int)
    (hs : List.Sorted (· < ·) entries)
    (hb : ∀ e ∈ entries, 0 ≤ e ∧ e < (N : Int))
    (hrc : runCount N entries ≤ 186) :
    (∀ i : Nat, i < N →
      (Covered (validate_ranges N entries).2 i ↔ (i : Int) ∉ entries)) ∧
    (∀ q ∈ (validate_ranges N entries).2, q.1 < q.2 ∧ q.2 ≤ N) ∧
    List.Chain' (fun q r => q.2 < r.1) (validate_ranges N entries).2 ∧
    (validate_ranges N entries).2.length ≤ 186 ∧
    ((validate_ranges N entries).1 = true ↔ (validate_ranges N entries).2 = []) :=
  validate_ranges_spec N entries hs hb hrc

/-- Witness for `validate_file_missing_ranges` at `N = 10`,
`P = {0, 1, 5, 6}`: the missing index 3 is covered by a returned range and
the computed ranges are `[2,5)`, `[7,10)`. -/
theorem validate_file_missing_ranges_witness :
    (Covered (validate_ranges 10 [0, 1, 5, 6]).2 3 ↔
      (3 : Int) ∉ ([0, 1, 5, 6] : List Int)) ∧
    ((validate_ranges 10 [0, 1, 5, 6]).1 = true ↔
      (validate_ranges 10 [0, 1, 5, 6]).2 = []) :=
  ⟨(validate_file_missing_ranges 10 [0, 1, 5, 6] (by decide) (by decide)
      (by decide)).1 3 (by decide),
   (validate_file_missing_ranges 10 [0, 1, 5, 6] (by decide) (by decide)
      (by decide)).2.2.2.2⟩

end KubosStorage

namespace KubosStorage

theorem cast_nat_int_injective : Function.Injective (fun n : Nat => (n : Int)) :=
  Nat.cast_injective

theorem dirEntries_staged (content : List Nat) (cs : Nat) (present : List Nat)
    (meta : Meta) :
    dirEntries (stagedDir content cs present meta) =
      present.map (fun j : Nat => (j : Int)) := by
  unfold dirEntries stagedDir
  rw [List.map_map]
  rfl

theorem scan_nil_ranges (l : List Int) :
    ∀ (prev : Int) (m : Nat), 0 < m → (scanEntries l prev m).1 = [] →
      gapCount l prev = 0 ∧
      (scanEntries l prev m).2.1 = lastPrev l prev ∧
      (scanEntries l prev m).2.2 = m := by
  induction l with
  | nil => intro prev m _ _; exact ⟨rfl, rfl, rfl⟩
  | cons e rest ih =>
    intro prev m hm hnil
    by_cases hgap : e - prev > 1
    · exfalso
      rw [scanEntries, if_pos hgap] at hnil
      by_cases hm1 : m - 1 = 0
      · rw [if_pos hm1] at hnil
        simp at hnil
      · rw [if_neg hm1] at hnil
        simp at hnil
    · have hscan : scanEntries (e :: rest) prev m = scanEntries rest e m := by
        rw [scanEntries, if_neg hgap]
      rw [hscan] at hnil ⊢
      obtain ⟨h1, h2, h3⟩ := ih e m hm hnil
      refine ⟨?_, h2, h3⟩
      simp [gapCount, hgap, h1]

theorem validate_complete_present (N : Nat) (entries : List Int)
    (hs : List.Sorted (· < ·) entries)
    (hb : ∀ e ∈ entries, 0 ≤ e ∧ e < (N : Int)) :
    (validate_ranges N entries).1 = true →
      ∀ j : Nat, j < N → (j : Int) ∈ entries := by
  intro hcomp j hj
  have hempty : (validate_ranges N entries).2 = [] :=
    (validate_ranges_complete_iff N entries).mp hcomp
  have hsorteq : entries.insertionSort (· ≤ ·) = entries :=
    List.Sorted.insertionSort_eq (hs.imp le_of_lt)
  have hvf : (validate_ranges N entries).2 =
      (scanEntries entries (-1) 186).1 ++
        trailingRange N (scanEntries entries (-1) 186).2.1
          (scanEntries entries (-1) 186).2.2 := by
    unfold validate_ranges
    rw [hsorteq]
  rw [hvf] at hempty
  obtain ⟨hs1, htr⟩ := List.append_eq_nil.mp hempty
  obtain ⟨hg0, hp186, hm186⟩ := scan_nil_ranges entries (-1) 186 (by norm_num) hs1
  have hNT : (N : Int) - lastPrev entries (-1) = 1 := by
    by_contra hne
    rw [hp186, hm186] at htr
    unfold trailingRange at htr
    rw [if_pos ⟨by norm_num, hne⟩] at htr
    exact List.noConfusion htr
  have hgt : ∀ e ∈ entries, (-1 : Int) < e := fun e he => by
    have := (hb e he).1
    omega
  exact gapCount_zero_mem entries (-1) hs hgt hg0 j (by omega) (by omega)

theorem scanEntries_range' (k : Nat) :
    ∀ (a : Nat) (m : Nat),
      scanEntries ((List.range' a k).map (fun j : Nat => (j : Int))) ((a : Int) - 1) m =
        ([], (a : Int) + (k : Int) - 1, m) := by
  induction k with
  | zero =>
    intro a m
    show scanEntries [] ((a : Int) - 1) m = _
    rw [scanEntries]
    have : (a : Int) + ((0 : Nat) : Int) - 1 = (a : Int) - 1 := by push_cast; ring
    rw [this]
  | succ k ih =>
    intro a m
    rw [List.range'_succ, List.map_cons, scanEntries, if_neg (by omega)]
    have hcast : ((a + 1 : Nat) : Int) - 1 = (a : Int) := by push_cast; ring
    have := ih (a + 1) m
    rw [hcast] at this
    rw [this]
    have : ((a + 1 : Nat) : Int) + (k : Int) - 1 =
        (a : Int) + ((k + 1 : Nat) : Int) - 1 := by push_cast; ring
    rw [this]

theorem validate_ranges_range (n : Nat) :
    validate_ranges n ((List.range n).map (fun j : Nat => (j : Int))) = (true, []) := by
  have hsorted : List.Sorted (· ≤ ·) ((List.range n).map (fun j : Nat => (j : Int))) := by
    refine List.Pairwise.map _ ?_ (List.pairwise_lt_range n)
    intro a b hab
    exact_mod_cast le_of_lt hab
  have hscan := scanEntries_range' n 0 186
  have hz : ((0 : Nat) : Int) - 1 = -1 := by norm_num
  rw [hz] at hscan
  have htr : trailingRange n (((0 : Nat) : Int) + (n : Int) - 1) 186 = [] := by
    unfold trailingRange
    rw [if_neg]
    rintro ⟨_, h2⟩
    apply h2
    push_cast
    ring
  simp only [validate_ranges]
  rw [List.Sorted.insertionSort_eq hsorted, List.range_eq_range' n, hscan]
  show ((([] : List (Nat × Nat)) ++
    trailingRange n (((0 : Nat) : Int) + (n : Int) - 1) 186).isEmpty,
    ([] : List (Nat × Nat)) ++
      trailingRange n (((0 : Nat) : Int) + (n : Int) - 1) 186) = _
  rw [htr]
  rfl

theorem load_chunk_seek_some (fs : FileSys) (d : HashDir) (m : Meta)
    (cs : Nat) (p : String) (S : List Nat) (hm : d.meta = some m)
    (hcs : m.chunk_size = some cs) (hp : m.file_path = some p)
    (hfs : fs p = some S) (i : Nat) :
    load_chunk fs d i = .ok (chunkOf S cs i) := by
  simp only [load_chunk, load_meta, hm, hcs, hp, hfs, chunkOf]

theorem reassembleLoop_seek_ok (fs : FileSys) (m : Meta) (cs : Nat) (p : String)
    (S : List Nat) (hcs : m.chunk_size = some cs) (hp : m.file_path = some p)
    (hfs : fs p = some S) :
    ∀ (k i : Nat) (d : HashDir) (acc : List Nat) (err : Option ProtocolError),
      d.meta = some m →
      reassembleLoop fs k i d acc err =
        ⟨none, d, acc ++ ((List.range' i k).map (chunkOf S cs)).flatten, err⟩ := by
  intro k
  induction k with
  | zero =>
    intro i d acc err hm
    show (⟨none, d, acc, err⟩ : LoopOut) = _
    simp
  | succ k ih =>
    intro i d acc err hm
    have hload := load_chunk_seek_some fs d m cs p S hm hcs hp hfs i
    conv_lhs => rw [reassembleLoop]
    simp only [hload]
    rw [ih (i + 1) d (acc ++ chunkOf S cs i) err hm]
    rw [List.range'_succ, List.map_cons, List.flatten_cons, List.append_assoc]

theorem flatten_chunkOf (S : List Nat) (cs : Nat) :
    ∀ (k i : Nat), ((List.range' i k).map (chunkOf S cs)).flatten =
      (S.drop (cs * i)).take (cs * k) := by
  intro k
  induction k with
  | zero => intro i; simp
  | succ k ih =>
    intro i
    rw [List.range'_succ, List.map_cons, List.flatten_cons, ih (i + 1)]
    show chunkOf S cs i ++ _ = _
    unfold chunkOf
    rw [show cs * (k + 1) = cs + cs * k by ring, List.take_add]
    congr 1
    rw [List.drop_drop, show cs * i + cs = cs * (i + 1) by ring]

theorem take_numChunks (S : List Nat) (cs : Nat) (hcs : 0 < cs) :
    S.take (cs * numChunksOf S.length cs) = S := by
  apply List.take_of_length_le
  unfold numChunksOf
  have h1 : cs * (S.length / cs) + S.length % cs = S.length :=
    Nat.div_add_mod S.length cs
  by_cases hr : S.length % cs > 0
  · rw [if_pos hr, Nat.mul_add, Nat.mul_one]
    have h2 : S.length % cs < cs := Nat.mod_lt _ hcs
    omega
  · rw [if_neg hr, Nat.mul_add]
    omega

end KubosStorage

namespace KubosStorage

theorem validate_file_none_eq (d : HashDir) (mm : Meta) (hm : d.meta = some mm) :
    validate_file d none = .ok (validate_ranges mm.num_chunks (dirEntries d), d) := by
  unfold validate_file
  rw [hm]

theorem load_meta_eq (d : HashDir) (mm : Meta) (hm : d.meta = some mm) :
    load_meta d = .ok mm := by
  unfold load_meta
  rw [hm]

/-- **C2.** For every byte sequence `S`: `initialize_file` on a source file
containing `S` returns the digest of `S`, `num_chunks = ceil(|S| / cs)` and
metadata referencing the source; `finalize_file` on a staging directory
holding every chunk of `S` reproduces `S` byte-identically as the target
content and returns success; and if any chunk index in `[0, num_chunks)`
has no stored chunk file, `finalize_file` returns
`FinalizeError("file missing chunks")` before the target file is created. -/
theorem initialize_finalize_roundtrip (hashFn : List Nat → String) (fs : FileSys)
    (p : String) (S : List Nat) (cs : Nat) (hcs : 0 < cs) (hfs : fs p = some S) :
    initialize_file hashFn fs p cs =
      .ok (hashFn S, numChunksOf S.length cs,
        ⟨numChunksOf S.length cs, some cs, some p⟩) ∧
    finalize_file hashFn fs (hashFn S)
        (stagedDir S cs (List.range (numChunksOf S.length cs))
          ⟨numChunksOf S.length cs, some cs, some p⟩) =
      ⟨.ok (), some (stagedDir S cs (List.range (numChunksOf S.length cs))
          ⟨numChunksOf S.length cs, some cs, some p⟩), some S⟩ ∧
    (∀ j, j < numChunksOf S.length cs →
      finalize_file hashFn fs (hashFn S)
          (stagedDir S cs
            ((List.range (numChunksOf S.length cs)).filter (fun x => x != j))
            ⟨numChunksOf S.length cs, some cs, some p⟩) =
        ⟨.error (.FinalizeError "file missing chunks"),
         some (stagedDir S cs
            ((List.range (numChunksOf S.length cs)).filter (fun x => x != j))
            ⟨numChunksOf S.length cs, some cs, some p⟩), none⟩) := by
  refine ⟨by simp only [initialize_file, hfs], ?_, ?_⟩
  · -- all chunks present: round trip succeeds
    have hentries : dirEntries (stagedDir S cs (List.range (numChunksOf S.length cs))
        ⟨numChunksOf S.length cs, some cs, some p⟩) =
        (List.range (numChunksOf S.length cs)).map (fun j : Nat => (j : Int)) :=
      dirEntries_staged S cs _ _
    have hvf0 : validate_file (stagedDir S cs (List.range (numChunksOf S.length cs))
        ⟨numChunksOf S.length cs, some cs, some p⟩) none =
        .ok ((true, []), stagedDir S cs (List.range (numChunksOf S.length cs))
          ⟨numChunksOf S.length cs, some cs, some p⟩) := by
      rw [validate_file_none_eq _ ⟨numChunksOf S.length cs, some cs, some p⟩ rfl]
      show Except.ok (validate_ranges (numChunksOf S.length cs) (dirEntries _), _) = _
      rw [hentries, validate_ranges_range]
    have hld : load_meta (stagedDir S cs (List.range (numChunksOf S.length cs))
        ⟨numChunksOf S.length cs, some cs, some p⟩) =
        .ok ⟨numChunksOf S.length cs, some cs, some p⟩ :=
      load_meta_eq _ _ rfl
    have hloopS : reassembleLoop fs (numChunksOf S.length cs) 0
        (stagedDir S cs (List.range (numChunksOf S.length cs))
          ⟨numChunksOf S.length cs, some cs, some p⟩) [] none =
        ⟨none, stagedDir S cs (List.range (numChunksOf S.length cs))
          ⟨numChunksOf S.length cs, some cs, some p⟩, S, none⟩ := by
      rw [reassembleLoop_seek_ok fs ⟨numChunksOf S.length cs, some cs, some p⟩
        cs p S rfl rfl hfs (numChunksOf S.length cs) 0 _ [] none rfl]
      rw [List.nil_append, flatten_chunkOf S cs (numChunksOf S.length cs) 0,
        Nat.mul_zero, List.drop_zero, take_numChunks S cs hcs]
    unfold finalize_file
    rw [hvf0]
    simp only [Bool.not_true, Bool.false_eq_true, if_false, reduceIte, hld, hloopS]
  · -- a missing chunk fails before the target is created
    intro j hj
    have hsorted : List.Sorted (· < ·)
        (((List.range (numChunksOf S.length cs)).filter (fun x => x != j)).map
          (fun k : Nat => (k : Int))) := by
      refine List.Pairwise.map _ (fun a b hab => by exact_mod_cast hab) ?_
      exact (List.pairwise_lt_range _).sublist (List.filter_sublist _)
    have hb : ∀ e ∈ ((List.range (numChunksOf S.length cs)).filter
        (fun x => x != j)).map (fun k : Nat => (k : Int)),
        0 ≤ e ∧ e < ((numChunksOf S.length cs : Nat) : Int) := by
      intro e he
      obtain ⟨x, hx, rfl⟩ := List.mem_map.mp he
      have hxr : x ∈ List.range (numChunksOf S.length cs) :=
        List.mem_of_mem_filter hx
      have := List.mem_range.mp hxr
      constructor
      · exact_mod_cast Nat.zero_le x
      · exact_mod_cast this
    have hjnot : ((j : Nat) : Int) ∉ ((List.range (numChunksOf S.length cs)).filter
        (fun x => x != j)).map (fun k : Nat => (k : Int)) := by
      rw [List.mem_map_of_injective cast_nat_int_injective]
      intro hmem
      have := List.of_mem_filter hmem
      simp at this
    have hincomp : (validate_ranges (numChunksOf S.length cs)
        (dirEntries (stagedDir S cs
          ((List.range (numChunksOf S.length cs)).filter (fun x => x != j))
          ⟨numChunksOf S.length cs, some cs, some p⟩))).1 = false := by
      rw [dirEntries_staged]
      cases hx : (validate_ranges (numChunksOf S.length cs)
          (((List.range (numChunksOf S.length cs)).filter (fun x => x != j)).map
            (fun k : Nat => (k : Int)))).1
      · rfl
      · exfalso
        exact hjnot (validate_complete_present _ _ hsorted hb hx j hj)
    unfold finalize_file
    rw [validate_file_none_eq _ ⟨numChunksOf S.length cs, some cs, some p⟩ rfl]
    simp only [hincomp, Bool.not_false, if_true, reduceIte]

/-- Witness for `initialize_finalize_roundtrip`: `S = [7,8,9,10,11]` with
chunk size 2 (3 chunks).  With all chunks staged, finalize reproduces `S`;
with chunk 1 removed it fails with `FinalizeError("file missing chunks")`
and no target content. -/
theorem initialize_finalize_roundtrip_witness :
    finalize_file (fun _ => "h")
        (fun q => if q = "src" then some [7, 8, 9, 10, 11] else none)
        ((fun _ => "h") [7, 8, 9, 10, 11])
        (stagedDir [7, 8, 9, 10, 11] 2 (List.range (numChunksOf 5 2))
          ⟨numChunksOf 5 2, some 2, some "src"⟩) =
      ⟨.ok (), some (stagedDir [7, 8, 9, 10, 11] 2 (List.range (numChunksOf 5 2))
          ⟨numChunksOf 5 2, some 2, some "src"⟩), some [7, 8, 9, 10, 11]⟩ ∧
    finalize_file (fun _ => "h")
        (fun q => if q = "src" then some [7, 8, 9, 10, 11] else none)
        ((fun _ => "h") [7, 8, 9, 10, 11])
        (stagedDir [7, 8, 9, 10, 11] 2
          ((List.range (numChunksOf 5 2)).filter (fun x => x != 1))
          ⟨numChunksOf 5 2, some 2, some "src"⟩) =
      ⟨.error (.FinalizeError "file missing chunks"),
       some (stagedDir [7, 8, 9, 10, 11] 2
          ((List.range (numChunksOf 5 2)).filter (fun x => x != 1))
          ⟨numChunksOf 5 2, some 2, some "src"⟩), none⟩ :=
  ⟨(initialize_finalize_roundtrip (fun _ => "h")
      (fun q => if q = "src" then some [7, 8, 9, 10, 11] else none)
      "src" [7, 8, 9, 10, 11] 2 (by decide) (by decide)).2.1,
   (initialize_finalize_roundtrip (fun _ => "h")
      (fun q => if q = "src" then some [7, 8, 9, 10, 11] else none)
      "src" [7, 8, 9, 10, 11] 2 (by decide) (by decide)).2.2 1 (by decide)⟩

end KubosStorage
